import Mathlib

/-!
Verification development for the intent-parsing core of the `heiha`
navigation assistant (`src/services/intentParser.js`).

Strings are modelled as `List Char`; JavaScript regular-expression
matching for the three concrete navigation patterns is modelled by
executable backtracking matchers with the leftmost-match, ordered
alternation, lazy `(.+?)` and greedy `(.+)` semantics of JS regexes
(where `.` excludes the four JS line terminators).
-/

namespace Heiha

abbrev Str := List Char

/-- The JavaScript `\s` character class (also the set removed by
`String.prototype.trim`). -/
def isJsWs (c : Char) : Bool :=
  c ∈ ['\t', '\n', '\x0b', '\x0c', '\r', ' ', ' ', ' ',
       ' ', ' ', ' ', ' ', ' ', ' ', ' ',
       ' ', ' ', ' ', ' ', ' ', ' ', ' ',
       ' ', '　', '﻿']

/-- The politeness/filler characters removed by `cleanCommand`:
the character class `[请帮帮我]` denotes the set {请, 帮, 我}. -/
def isFiller (c : Char) : Bool :=
  c ∈ ['请', '帮', '我']

/-- `replace(/\s+/g, ' ')`: each maximal run of whitespace becomes one
space.  The one-character lookahead drops a whitespace character whose
successor is also whitespace, so each run is emitted as its final
character, rewritten to `' '`. -/
def collapseWs : Str → Str
  | [] => []
  | [c] => if isJsWs c then [' '] else [c]
  | c :: d :: rest =>
    if isJsWs c ∧ isJsWs d then collapseWs (d :: rest)
    else (if isJsWs c then ' ' else c) :: collapseWs (d :: rest)

/-- `String.prototype.trim`. -/
def trimStr (s : Str) : Str :=
  (((s.dropWhile isJsWs).reverse).dropWhile isJsWs).reverse

/-- `IntentParser.cleanCommand`: strip fillers, collapse whitespace,
trim. -/
def cleanCommand (s : Str) : Str :=
  trimStr (collapseWs (s.filter (fun c => !isFiller c)))

/-- JS regex `.`: any character except the four line terminators. -/
def isDot (c : Char) : Bool :=
  !(c ∈ ['\n', '\r', '\u2028', '\u2029'])

/-- Match a literal at the start of `s`; on success return the rest. -/
def litPre (p s : Str) : Option Str :=
  if p.isPrefixOf s then some (s.drop p.length) else none

/-- The head alternation `(?:导航|去|到|前往|从)` of the route pattern,
in source order. -/
def routeHeads : List Str :=
  [['导', '航'], ['去'], ['到'], ['前', '往'], ['从']]

/-- The middle alternation `(?:到|至|去|前往)` of the route pattern. -/
def midMarkers : List Str :=
  [['到'], ['至'], ['去'], ['前', '往']]

/-- The head alternation `(?:导航|去|到|前往)` of the destination
pattern. -/
def destHeads : List Str :=
  [['导', '航'], ['去'], ['到'], ['前', '往']]

/-- Try the middle markers in order at `s`; a marker succeeds when the
greedy `(.+)` after it can take at least one character.  Returns the
second capture group. -/
def midTryList : List Str → Str → Option Str
  | [], _ => none
  | m :: ms, s =>
    match litPre m s with
    | some r =>
      let g := r.takeWhile isDot
      if g = [] then midTryList ms s else some g
    | none => midTryList ms s

def midTry (s : Str) : Option Str := midTryList midMarkers s

/-- The lazy `(.+?)` of the route pattern followed by the middle marker
and the greedy `(.+)`: shortest first capture wins. -/
def routeLazy : Str → Option (Str × Str)
  | [] => none
  | c :: rest =>
    if isDot c then
      match midTry rest with
      | some g2 => some ([c], g2)
      | none =>
        match routeLazy rest with
        | some (g1, g2) => some (c :: g1, g2)
        | none => none
    else none

/-- Try the route head alternatives in order at one position. -/
def routeHeadsTry : List Str → Str → Option (Str × Str)
  | [], _ => none
  | h :: hs, s =>
    match litPre h s with
    | some r =>
      match routeLazy r with
      | some g => some g
      | none => routeHeadsTry hs s
    | none => routeHeadsTry hs s

/-- `/(?:导航|去|到|前往|从)(.+?)(?:到|至|去|前往)(.+)/` applied by
`String.prototype.match`: leftmost start position wins. -/
def routeMatch : Str → Option (Str × Str)
  | [] => none
  | c :: rest =>
    match routeHeadsTry routeHeads (c :: rest) with
    | some g => some g
    | none => routeMatch rest

/-- Try the destination head alternatives in order at one position;
the greedy `(.+)` must capture at least one character. -/
def destHeadsTry : List Str → Str → Option Str
  | [], _ => none
  | h :: hs, s =>
    match litPre h s with
    | some r =>
      let g := r.takeWhile isDot
      if g = [] then destHeadsTry hs s else some g
    | none => destHeadsTry hs s

/-- `/(?:导航|去|到|前往)(.+)/` applied leftmost. -/
def destMatch : Str → Option Str
  | [] => none
  | c :: rest =>
    match destHeadsTry destHeads (c :: rest) with
    | some g => some g
    | none => destMatch rest

/-- Does `(?:出发|开始)` match at `s`? -/
def depMarker (s : Str) : Bool :=
  (litPre ['出', '发'] s).isSome || (litPre ['开', '始'] s).isSome

/-- The lazy `(.+?)` of the start pattern followed by `(?:出发|开始)`. -/
def startLazy : Str → Option Str
  | [] => none
  | c :: rest =>
    if isDot c then
      if depMarker rest then some [c]
      else
        match startLazy rest with
        | some g => some (c :: g)
        | none => none
    else none

/-- `/(?:从)(.+?)(?:出发|开始)/` applied leftmost. -/
def startMatch : Str → Option Str
  | [] => none
  | c :: rest =>
    match litPre ['从'] (c :: rest) with
    | some r =>
      match startLazy r with
      | some g => some g
      | none => startMatch rest
    | none => startMatch rest

/-- The `locationKeywords` table: canonical city name paired with its
variant spellings, in declaration order. -/
def locationKeywords : List (Str × List Str) :=
  [ (['北', '京'], [['北', '京'], ['北', '京', '市'], ['京', '城'], ['帝', '都']]),
    (['上', '海'], [['上', '海'], ['上', '海', '市'], ['申', '城'], ['魔', '都']]),
    (['广', '州'], [['广', '州'], ['广', '州', '市'], ['羊', '城']]),
    (['深', '圳'], [['深', '圳'], ['深', '圳', '市'], ['鹏', '城']]),
    (['杭', '州'], [['杭', '州'], ['杭', '州', '市'], ['杭', '城']]),
    (['成', '都'], [['成', '都'], ['成', '都', '市'], ['蓉', '城']]),
    (['武', '汉'], [['武', '汉'], ['武', '汉', '市'], ['江', '城']]),
    (['西', '安'], [['西', '安'], ['西', '安', '市'], ['长', '安']]),
    (['南', '京'], [['南', '京'], ['南', '京', '市'], ['金', '陵']]),
    (['天', '津'], [['天', '津'], ['天', '津', '市']]) ]

/-- The `commonDestinations` table.  In `normalizeLocation` the loop
over it only `break`s and never rewrites, so it does not affect any
output; it is kept here for completeness. -/
def commonDestinations : List (Str × List Str) :=
  [ (['机', '场'], [['机', '场'], ['飞', '机', '场'], ['航', '空', '港']]),
    (['火', '车', '站'], [['火', '车', '站'], ['高', '铁', '站'], ['动', '车', '站']]),
    (['汽', '车', '站'], [['汽', '车', '站'], ['客', '运', '站'], ['长', '途', '车', '站']]),
    (['医', '院'], [['医', '院'], ['人', '民', '医', '院'], ['中', '心', '医', '院']]),
    (['学', '校'], [['学', '校'], ['大', '学'], ['学', '院'], ['中', '学']]),
    (['商', '场'], [['商', '场'], ['购', '物', '中', '心'], ['百', '货']]),
    (['酒', '店'], [['酒', '店'], ['宾', '馆'], ['旅', '馆']]),
    (['餐', '厅'], [['餐', '厅'], ['饭', '店'], ['餐', '馆']]),
    (['加', '油', '站'], [['加', '油', '站'], ['油', '站']]),
    (['家'], [['家'], ['家', '里'], ['回', '家']]),
    (['公', '司'], [['公', '司'], ['单', '位'], ['上', '班']]) ]

/-- Does `p` occur as a substring of `s` (JS `String.includes`)? -/
def hasSub (p : Str) : Str → Bool
  | [] => p.isEmpty
  | c :: rest => p.isPrefixOf (c :: rest) || hasSub p rest

/-- First alias group one of whose variants occurs in `loc`
(iteration order = declaration order, first match wins). -/
def findGroup : List (Str × List Str) → Str → Option (Str × List Str)
  | [], _ => none
  | (std, vars) :: rest, loc =>
    if vars.any (fun v => hasSub v loc) then some (std, vars)
    else findGroup rest loc

/-- Length of the first variant that is a literal match at `s`
(ordered alternation `variants.join('|')`). -/
def firstMatchLen : List Str → Str → Option Nat
  | [], _ => none
  | p :: ps, s => if p.isPrefixOf s then some p.length else firstMatchLen ps s

/-- Global regex replace `s.replace(new RegExp(variants.join('|'), 'g'),
canon)`: scan left to right, at each position try the alternatives in
order, replace the matched span and continue after it.  Fuel-driven so
that the kernel can evaluate it; `s.length` fuel always suffices. -/
def replaceAllF (vars : List Str) (canon : Str) : Nat → Str → Str
  | _, [] => []
  | 0, s => s
  | fuel + 1, c :: rest =>
    match firstMatchLen vars (c :: rest) with
    | some n =>
      if n = 0 then canon ++ c :: replaceAllF vars canon fuel rest
      else canon ++ replaceAllF vars canon fuel ((c :: rest).drop n)
    | none => c :: replaceAllF vars canon fuel rest

def replaceAll (vars : List Str) (canon : Str) (s : Str) : Str :=
  replaceAllF vars canon s.length s

/-- `IntentParser.normalizeLocation`: first matching city group rewrites
all alternation matches to the canonical name; the common-destination
loop is a recognized no-op (`break` only, no rewrite). -/
def normalizeLocation (loc : Str) : Str :=
  match findGroup locationKeywords loc with
  | some (std, vars) => replaceAll vars std loc
  | none => loc

/-- The current-location sentinel `"当前位置"`. -/
def curLoc : Str := ['当', '前', '位', '置']

/-- The unspecified-destination sentinel `"未指定目的地"`. -/
def noDest : Str := ['未', '指', '定', '目', '的', '地']

/-- The four intent types. -/
inductive IntentType where
  | route_navigation
  | destination_navigation
  | start_navigation
  | unknown
deriving DecidableEq, Repr

/-- The `entities` object: optional `start` and `end` string fields. -/
structure Entities where
  start : Option Str
  «end» : Option Str
deriving DecidableEq, Repr

/-- An Intent record as produced by `IntentParser.parse`. -/
structure Intent where
  type : IntentType
  confidence : ℚ
  entities : Entities
  originalCommand : Str
  parsedIntent : Str
deriving DecidableEq, Repr

/-- JS truthiness of an optional string field: `undefined` and the
empty string are falsy. -/
def truthy : Option Str → Bool
  | none => false
  | some s => !s.isEmpty

/-- `IntentParser.normalizeLocations`: normalize `start` unless it is
falsy or the current-location sentinel, and `end` unless it is falsy or
the unspecified-destination sentinel. -/
def normalizeEntities (e : Entities) : Entities :=
  { start :=
      match e.start with
      | some s => if s ≠ [] ∧ s ≠ curLoc then some (normalizeLocation s) else some s
      | none => none,
    «end» :=
      match e.«end» with
      | some s => if s ≠ [] ∧ s ≠ noDest then some (normalizeLocation s) else some s
      | none => none }

/-- `IntentParser.generateIntentDescription`. -/
def generateIntentDescription (t : IntentType) (e : Entities) : Str :=
  match t with
  | .route_navigation =>
    ['从', ' '] ++ e.start.getD [] ++ [' ', '导', '航', '到', ' '] ++ e.«end».getD []
  | .destination_navigation => ['导', '航', '到', ' '] ++ e.«end».getD []
  | .start_navigation => ['从', ' '] ++ e.start.getD [] ++ [' ', '出', '发']
  | .unknown => ['导', '航', '指', '令']

/-- `IntentParser.parseNavigation`: try the three patterns in
declaration order; a match yields a 0.9-confidence intent whose
`originalCommand` is the (cleaned) text this function received. -/
def routeEntities (g1 g2 : Str) : Entities :=
  normalizeEntities { start := some (trimStr g1), «end» := some (trimStr g2) }

def destEntities (g : Str) : Entities :=
  normalizeEntities { start := some curLoc, «end» := some (trimStr g) }

def startEntities (g : Str) : Entities :=
  normalizeEntities { start := some (trimStr g), «end» := some noDest }

def parseNavigation (cmd : Str) : Option Intent :=
  match routeMatch cmd with
  | some (g1, g2) =>
    some { type := .route_navigation, confidence := 9 / 10,
           entities := routeEntities g1 g2,
           originalCommand := cmd,
           parsedIntent := generateIntentDescription .route_navigation (routeEntities g1 g2) }
  | none =>
  match destMatch cmd with
  | some g =>
    some { type := .destination_navigation, confidence := 9 / 10,
           entities := destEntities g,
           originalCommand := cmd,
           parsedIntent := generateIntentDescription .destination_navigation (destEntities g) }
  | none =>
  match startMatch cmd with
  | some g =>
    some { type := .start_navigation, confidence := 9 / 10,
           entities := startEntities g,
           originalCommand := cmd,
           parsedIntent := generateIntentDescription .start_navigation (startEntities g) }
  | none => none

/-- `IntentParser.parse` on a string input: clean, try the navigation
patterns, otherwise fall back to the `unknown` intent whose
`originalCommand` is the raw input. -/
def parse (s : Str) : Intent :=
  match parseNavigation (cleanCommand s) with
  | some i => i
  | none =>
    { type := .unknown, confidence := 1 / 10,
      entities := { start := none, «end» := none },
      originalCommand := s,
      parsedIntent := ['无', '法', '识', '别', '的', '指', '令'] }

/-- Result of `IntentParser.validateResult`. -/
structure ValidationResult where
  valid : Bool
  error : Option Str
deriving DecidableEq, Repr

/-- `IntentParser.validateResult`: truthiness checks on the required
entity fields of route and destination intents. -/
def validateResult (r : Intent) : ValidationResult :=
  match r.type with
  | .route_navigation =>
    if truthy r.entities.start = false ∨ truthy r.entities.«end» = false then
      { valid := false,
        error := some ['缺', '少', '起', '点', '或', '终', '点', '信', '息'] }
    else { valid := true, error := none }
  | .destination_navigation =>
    if truthy r.entities.«end» = false then
      { valid := false, error := some ['缺', '少', '目', '的', '地', '信', '息'] }
    else { valid := true, error := none }
  | _ => { valid := true, error := none }

/-- A JavaScript argument to `parse`: either a proper string or a
non-string value such as `null`. -/
inductive JSInput where
  | null
  | str (s : Str)
deriving DecidableEq, Repr

/-- `cleanCommand` at the JavaScript level: calling
`command.replace(...)` on `null` (or any non-string) raises a
`TypeError`; there is no normalization of such inputs to `""`. -/
def cleanCommandJS : JSInput → Except Str Str
  | .null => .error ['T', 'y', 'p', 'e', 'E', 'r', 'r', 'o', 'r']
  | .str s => .ok (cleanCommand s)

/-- `parse` at the JavaScript level: a `TypeError` raised by
`cleanCommand` propagates out of `parse`; otherwise proceed exactly as
`parse` does, keeping the raw argument as `originalCommand` of the
`unknown` fallback. -/
def parseJS (x : JSInput) : Except Str Intent :=
  match cleanCommandJS x with
  | .error e => .error e
  | .ok cleaned =>
    .ok (match parseNavigation cleaned with
      | some i => i
      | none =>
        { type := .unknown, confidence := 1 / 10,
          entities := { start := none, «end» := none },
          originalCommand := match x with | .str s => s | .null => [],
          parsedIntent := ['无', '法', '识', '别', '的', '指', '令'] })

/-! ## Concrete commands used in the scenarios -/

def cmdScenario1 : Str := ['导', '航', '从', '北', '京', '到', '上', '海']

def cmdScenario3 : Str := ['从', '公', '司', '导', '航', '回', '家']

def cmdScenario5 : Str :=
  ['请', '帮', '我', '导', '航', '从', '北', '京', '市', '到', '上', '海', '市']

def cmdPolite : Str := ['请', '去', '北', '京']

def cmdRouteSentinel : Str := ['从', 'A', '到'] ++ noDest

def cmdSpacedRoute : Str := ['去', ' ', '到', '上', '海']

def cmdMyHome : Str := ['去', '我', '家']

/-! ## General facts about `parseNavigation` and `parse` -/

/-- Every successful `parseNavigation` result carries confidence 0.9, a
non-`unknown` type, and the text `parseNavigation` received (the
cleaned command) as its `originalCommand`. -/
theorem parseNavigation_spec (c : Str) (i : Intent)
    (h : parseNavigation c = some i) :
    i.confidence = 9 / 10 ∧ i.originalCommand = c ∧
      i.type ≠ IntentType.unknown := by
  unfold parseNavigation at h
  split at h
  · cases h; exact ⟨rfl, rfl, fun hc => nomatch hc⟩
  · split at h
    · cases h; exact ⟨rfl, rfl, fun hc => nomatch hc⟩
    · split at h
      · cases h; exact ⟨rfl, rfl, fun hc => nomatch hc⟩
      · exact Option.noConfusion h

/-! ## C1 — Scenario 1: `"导航从北京到上海"` -/

/-- C1, counterexample: on the input `"导航从北京到上海"` the head
alternation consumes `导航` first, so the lazy first group captures
`"从北京"`, not `"北京"` as the claim states. -/
theorem c1_counterexample :
    (parse cmdScenario1).type = IntentType.route_navigation ∧
      (parse cmdScenario1).entities.start = some ['从', '北', '京'] ∧
      (parse cmdScenario1).entities.start ≠ some ['北', '京'] := by
  decide

/-- C1, amended: `parse "导航从北京到上海"` returns a `route_navigation`
intent with entities `{start: "从北京", end: "上海"}`, confidence 0.9,
and the validator reports it valid. -/
theorem c1_amended :
    parse cmdScenario1 =
      { type := IntentType.route_navigation, confidence := 9 / 10,
        entities := { start := some ['从', '北', '京'],
                      «end» := some ['上', '海'] },
        originalCommand := cmdScenario1,
        parsedIntent := ['从', ' ', '从', '北', '京', ' ',
                         '导', '航', '到', ' ', '上', '海'] } ∧
      validateResult (parse cmdScenario1) = { valid := true, error := none } :=
  ⟨rfl, rfl⟩

/-! ## C2 — validator and the unspecified-destination sentinel -/

/-- C2, counterexample: the parser itself produces a
`route_navigation` intent whose `end` is the sentinel `"未指定目的地"`
(from the input `"从A到未指定目的地"`), and `validateResult` reports it
valid, because the sentinel is a non-empty — hence truthy — string. -/
theorem c2_counterexample :
    (parse cmdRouteSentinel).type = IntentType.route_navigation ∧
      (parse cmdRouteSentinel).entities.«end» = some noDest ∧
      (validateResult (parse cmdRouteSentinel)).valid = true := by
  decide

/-- C2, amended: for a `route_navigation` intent the core
`validateResult` checks only JS truthiness (presence and
non-emptiness) of `start` and `end`; a sentinel `end` is truthy and is
therefore reported valid whenever `start` is truthy. -/
theorem c2_amended (i : Intent)
    (hi : i.type = IntentType.route_navigation) :
    (validateResult i).valid = false ↔
      (truthy i.entities.start = false ∨ truthy i.entities.«end» = false) := by
  unfold validateResult
  rw [hi]
  by_cases h : truthy i.entities.start = false ∨ truthy i.entities.«end» = false
  · simp [h]
  · simp [h]

/-- C2, witness for the amended theorem at the parser-produced intent
of `"从A到未指定目的地"`. -/
theorem c2_witness :
    (validateResult (parse cmdRouteSentinel)).valid = false ↔
      (truthy (parse cmdRouteSentinel).entities.start = false ∨
        truthy (parse cmdRouteSentinel).entities.«end» = false) :=
  c2_amended (parse cmdRouteSentinel) (by decide)

/-! ## C4 — city alias rewriting -/

/-- C4, counterexample: because the alternation
`北京|北京市|京城|帝都` is ordered and `北京` precedes `北京市`, the
replacement on `"北京市"` rewrites only the prefix `北京` (to itself)
and leaves `市`: `"北京市"` does not normalize to `"北京"`. -/
theorem c4_counterexample :
    normalizeLocation ['北', '京', '市'] = ['北', '京', '市'] ∧
      (['北', '京', '市'] : Str) ≠ ['北', '京'] := by
  decide

/-- C4, amended: alias rewriting replaces, at each position, the first
variant in declaration order that matches there.  A long form such as
`"北京市"`/`"上海市"` is matched only on its earlier-listed prefix
`"北京"`/`"上海"` and hence normalizes to itself, while genuinely
distinct variants (`"京城"`, `"帝都"`) are rewritten — at every
occurrence — to the canonical name.  Cleaning of Scenario 5's input
does strip the politeness characters. -/
theorem c4_amended :
    normalizeLocation ['北', '京', '市'] = ['北', '京', '市'] ∧
      normalizeLocation ['上', '海', '市'] = ['上', '海', '市'] ∧
      normalizeLocation ['京', '城'] = ['北', '京'] ∧
      normalizeLocation ['帝', '都', '和', '帝', '都'] =
        ['北', '京', '和', '北', '京'] ∧
      cleanCommand cmdScenario5 =
        ['导', '航', '从', '北', '京', '市', '到', '上', '海', '市'] := by
  decide

/-! ## C5 — Scenario 3: `"从公司导航回家"` -/

/-- C5, counterexample: the destination pattern matches
`"从公司导航回家"` at the position of `导航` before the start-only
pattern is ever tried, so the result type is
`destination_navigation`, not `start_navigation`. -/
theorem c5_counterexample :
    (parse cmdScenario3).type = IntentType.destination_navigation ∧
      IntentType.destination_navigation ≠ IntentType.start_navigation := by
  decide

/-- C5, amended: `parse "从公司导航回家"` returns a
`destination_navigation` intent with `start` the current-location
sentinel and `end = "回家"`, and the validator reports it valid. -/
theorem c5_amended :
    parse cmdScenario3 =
      { type := IntentType.destination_navigation, confidence := 9 / 10,
        entities := { start := some curLoc, «end» := some ['回', '家'] },
        originalCommand := cmdScenario3,
        parsedIntent := ['导', '航', '到', ' ', '回', '家'] } ∧
      (validateResult (parse cmdScenario3)).valid = true :=
  ⟨rfl, rfl⟩

/-! ## C7 — malformed input -/

/-- C7, counterexample: `parse(null)` is not normalized to the empty
string; `cleanCommand` calls `null.replace`, which raises a
`TypeError` that propagates out of `parse`. -/
theorem c7_counterexample :
    parseJS JSInput.null =
      Except.error ['T', 'y', 'p', 'e', 'E', 'r', 'r', 'o', 'r'] := rfl

/-- C7, amended: for every proper string input (including the empty
string) `parse` returns an Intent and never fails; only a non-string
argument such as `null` makes `cleanCommand` — and hence `parse` —
throw, since no normalization of such inputs exists. -/
theorem c7_amended (s : Str) : parseJS (JSInput.str s) = Except.ok (parse s) := by
  unfold parseJS cleanCommandJS parse
  rfl

/-- C7, witness: the amended theorem at the empty string. -/
theorem c7_witness : parseJS (JSInput.str []) = Except.ok (parse []) :=
  c7_amended []

/-! ## C3 — well-formedness of every parse result -/

/-- C3, counterexample: `parseNavigation` stores the *cleaned* command
in `originalCommand`, so for the input `"请去北京"` the field holds
`"去北京"`, not the input verbatim. -/
theorem c3_counterexample :
    (parse cmdPolite).originalCommand = ['去', '北', '京'] ∧
      (parse cmdPolite).originalCommand ≠ cmdPolite := by
  decide

/-- C3, amended: for every input string `s`, `parse s` terminates (it
is a total function) and returns a well-formed Intent: the type is one
of the four intent types (by construction of `IntentType`), the
confidence is 0.9 or 0.1 — hence within `[0,1]` — and the entities
field is present; `originalCommand` is the input verbatim only for the
`unknown` fallback, and is the *cleaned* command whenever a navigation
pattern matched. -/
theorem c3_amended (s : Str) :
    ((parse s).confidence = 9 / 10 ∨ (parse s).confidence = 1 / 10) ∧
      0 ≤ (parse s).confidence ∧ (parse s).confidence ≤ 1 ∧
      ((parse s).type = IntentType.unknown → (parse s).originalCommand = s) ∧
      ((parse s).type ≠ IntentType.unknown →
        (parse s).originalCommand = cleanCommand s) := by
  unfold parse
  split
  next i h =>
    obtain ⟨hc, ho, ht⟩ := parseNavigation_spec _ _ h
    refine ⟨Or.inl hc, ?_, ?_, fun hu => absurd hu ht, fun _ => ho⟩
    · rw [hc]; norm_num
    · rw [hc]; norm_num
  next h =>
    refine ⟨Or.inr rfl, ?_, ?_, fun _ => rfl, fun hne => absurd rfl hne⟩
    · show (0 : ℚ) ≤ 1 / 10
      norm_num
    · show (1 : ℚ) / 10 ≤ 1
      norm_num

/-- C3, witness: the amended theorem applied at `"请去北京"`, whose
parse result is a matched (non-`unknown`) intent. -/
theorem c3_witness :
    (parse cmdPolite).originalCommand = cleanCommand cmdPolite :=
  (c3_amended cmdPolite).2.2.2.2 (by decide)

/-! ## C6 — rule-order: route beats destination-only -/

/-- C6: whenever the route pattern (a from-marker followed by a
to-marker with two location spans) matches the cleaned text, `parse`
classifies the command as `route_navigation` and never as
`destination_navigation`, because the route rule is tried first. -/
theorem c6_route_priority (s g1 g2 : Str)
    (h : routeMatch (cleanCommand s) = some (g1, g2)) :
    (parse s).type = IntentType.route_navigation ∧
      (parse s).type ≠ IntentType.destination_navigation := by
  unfold parse parseNavigation
  rw [h]
  exact ⟨rfl, fun hc => nomatch hc⟩

/-- C6, witness: the route pattern matches the cleaned
`"导航从北京到上海"`, which is classified `route_navigation`. -/
theorem c6_witness :
    (parse cmdScenario1).type = IntentType.route_navigation ∧
      (parse cmdScenario1).type ≠ IntentType.destination_navigation :=
  c6_route_priority cmdScenario1 ['从', '北', '京'] ['上', '海'] (by decide)

/-! ## Structural lemmas about cleaning -/

/-- No two adjacent whitespace characters. -/
def NoWsPair (l : Str) : Prop :=
  List.Chain' (fun a b => ¬(isJsWs a = true ∧ isJsWs b = true)) l

theorem collapseWs_cons_of_not_ws {d : Char} (l : Str) (hd : isJsWs d = false) :
    collapseWs (d :: l) = d :: collapseWs l := by
  cases l with
  | nil => simp [collapseWs, hd]
  | cons e l' => simp [collapseWs, hd]

theorem mem_collapseWs : ∀ (l : Str) (c : Char), c ∈ collapseWs l → c ∈ l ∨ c = ' '
  | [], c, h => by simp [collapseWs] at h
  | [d], c, h => by
    by_cases hd : isJsWs d = true
    · simp [collapseWs, hd] at h
      exact Or.inr h
    · simp [collapseWs, hd] at h
      exact Or.inl (by simp [h])
  | d :: e :: l', c, h => by
    by_cases hde : isJsWs d = true ∧ isJsWs e = true
    · simp only [collapseWs, if_pos hde] at h
      rcases mem_collapseWs (e :: l') c h with h' | h'
      · exact Or.inl (List.mem_cons_of_mem _ h')
      · exact Or.inr h'
    · simp only [collapseWs, if_neg hde, List.mem_cons] at h
      rcases h with h' | h'
      · by_cases hd : isJsWs d = true
        · right; simp [hd] at h'; exact h'
        · left; simp [hd] at h'; simp [h']
      · rcases mem_collapseWs (e :: l') c h' with h'' | h''
        · exact Or.inl (List.mem_cons_of_mem _ h'')
        · exact Or.inr h''

theorem ws_mem_collapseWs :
    ∀ (l : Str) (c : Char), c ∈ collapseWs l → isJsWs c = true → c = ' '
  | [], c, h, _ => by simp [collapseWs] at h
  | [d], c, h, hc => by
    by_cases hd : isJsWs d = true
    · simp [collapseWs, hd] at h
      exact h
    · simp [collapseWs, hd] at h
      rw [h] at hc
      exact absurd hc (by simp [hd])
  | d :: e :: l', c, h, hc => by
    by_cases hde : isJsWs d = true ∧ isJsWs e = true
    · simp only [collapseWs, if_pos hde] at h
      exact ws_mem_collapseWs (e :: l') c h hc
    · simp only [collapseWs, if_neg hde, List.mem_cons] at h
      rcases h with h' | h'
      · by_cases hd : isJsWs d = true
        · simpa [hd] using h'
        · simp [hd] at h'
          rw [h'] at hc
          exact absurd hc (by simp [hd])
      · exact ws_mem_collapseWs (e :: l') c h' hc

theorem noWsPair_collapseWs : ∀ l : Str, NoWsPair (collapseWs l)
  | [] => by simp [collapseWs, NoWsPair]
  | [d] => by
    by_cases hd : isJsWs d = true <;> simp [collapseWs, hd, NoWsPair]
  | d :: e :: l' => by
    by_cases hde : isJsWs d = true ∧ isJsWs e = true
    · simp only [collapseWs, if_pos hde]
      exact noWsPair_collapseWs (e :: l')
    · simp only [collapseWs, if_neg hde]
      rw [NoWsPair, List.chain'_cons']
      refine ⟨?_, noWsPair_collapseWs (e :: l')⟩
      intro y hy
      by_cases hd : isJsWs d = true
      · have he : isJsWs e = false := by
          cases hwe : isJsWs e
          · rfl
          · exact absurd ⟨hd, hwe⟩ hde
        rw [collapseWs_cons_of_not_ws l' he] at hy
        simp at hy
        rw [← hy]
        simp [he]
      · simp [hd]

theorem collapseWs_eq_self :
    ∀ l : Str, NoWsPair l → (∀ c ∈ l, isJsWs c = true → c = ' ') →
      collapseWs l = l
  | [], _, _ => rfl
  | [d], _, hsp => by
    by_cases hd : isJsWs d = true
    · have : d = ' ' := hsp d (by simp) hd
      simp [collapseWs, hd, this]
    · simp [collapseWs, hd]
  | d :: e :: l', hnp, hsp => by
    have hde : ¬(isJsWs d = true ∧ isJsWs e = true) := by
      rw [NoWsPair, List.chain'_cons'] at hnp
      exact hnp.1 e (by simp)
    simp only [collapseWs, if_neg hde]
    have htail : collapseWs (e :: l') = e :: l' :=
      collapseWs_eq_self (e :: l')
        (by rw [NoWsPair, List.chain'_cons'] at hnp; exact hnp.2)
        (fun c hc h => hsp c (List.mem_cons_of_mem _ hc) h)
    rw [htail]
    by_cases hd : isJsWs d = true
    · rw [if_pos hd, hsp d (by simp) hd]
    · rw [if_neg hd]

theorem mem_trimStr {l : Str} {c : Char} (h : c ∈ trimStr l) : c ∈ l := by
  unfold trimStr at h
  rw [List.mem_reverse] at h
  have h1 := (List.dropWhile_sublist isJsWs).mem h
  rw [List.mem_reverse] at h1
  exact (List.dropWhile_sublist isJsWs).mem h1

theorem noWsPair_trimStr {l : Str} (h : NoWsPair l) : NoWsPair (trimStr l) := by
  have flip_imp : ∀ {m : Str}, NoWsPair m → NoWsPair m.reverse := by
    intro m hm
    rw [NoWsPair, List.chain'_reverse]
    exact hm.imp (fun a b hab => fun ⟨x, y⟩ => hab ⟨y, x⟩)
  have h1 : NoWsPair (l.dropWhile isJsWs) :=
    h.suffix (List.dropWhile_suffix _)
  have h2 := flip_imp h1
  have h3 : NoWsPair ((l.dropWhile isJsWs).reverse.dropWhile isJsWs) :=
    h2.suffix (List.dropWhile_suffix _)
  exact flip_imp h3

theorem head?_dropWhile_false {α : Type _} (p : α → Bool) :
    ∀ (l : List α) (c : α), (l.dropWhile p).head? = some c → p c = false := by
  intro l
  induction l with
  | nil => simp
  | cons a l ih =>
    intro c h
    by_cases hp : p a = true
    · rw [List.dropWhile_cons_of_pos hp] at h
      exact ih c h
    · rw [List.dropWhile_cons_of_neg hp] at h
      simp at h
      rw [← h]
      simpa using hp

theorem dropWhile_eq_self_of_head {α : Type _} (p : α → Bool) (l : List α)
    (h : ∀ c, l.head? = some c → p c = false) : l.dropWhile p = l := by
  cases l with
  | nil => rfl
  | cons a l => exact List.dropWhile_cons_of_neg (by simp [h a rfl])

theorem getLast?_append_ne {α : Type _} (l l' : List α) (h : l' ≠ []) :
    (l ++ l').getLast? = l'.getLast? := by
  cases hg : l'.getLast? with
  | none => exact absurd (List.getLast?_eq_none_iff.mp hg) h
  | some a =>
    rw [List.getLast?_eq_head?_reverse, List.reverse_append, List.head?_append,
      List.head?_reverse, hg]
    rfl

theorem getLast?_of_suffix {α : Type _} {l₁ l₂ : List α} (h : l₁ <:+ l₂)
    (hne : l₁ ≠ []) : l₂.getLast? = l₁.getLast? := by
  obtain ⟨pre, rfl⟩ := h
  exact getLast?_append_ne pre l₁ hne

theorem head?_trimStr_false (l : Str) :
    ∀ c, (trimStr l).head? = some c → isJsWs c = false := by
  intro c h
  unfold trimStr at h
  rw [List.head?_reverse] at h
  set m := (l.dropWhile isJsWs).reverse.dropWhile isJsWs with hm
  have hmne : m ≠ [] := by
    intro hnil
    rw [hnil] at h
    simp at h
  have : m.getLast? = ((l.dropWhile isJsWs).reverse).getLast? :=
    (getLast?_of_suffix (List.dropWhile_suffix _) hmne).symm
  rw [this, List.getLast?_reverse] at h
  exact head?_dropWhile_false isJsWs l c h

theorem getLast?_trimStr_false (l : Str) :
    ∀ c, (trimStr l).getLast? = some c → isJsWs c = false := by
  intro c h
  unfold trimStr at h
  rw [List.getLast?_reverse] at h
  exact head?_dropWhile_false isJsWs _ c h

theorem trimStr_eq_self (l : Str)
    (h1 : ∀ c, l.head? = some c → isJsWs c = false)
    (h2 : ∀ c, l.getLast? = some c → isJsWs c = false) : trimStr l = l := by
  unfold trimStr
  rw [dropWhile_eq_self_of_head isJsWs l h1]
  rw [dropWhile_eq_self_of_head isJsWs l.reverse
    (fun c hc => h2 c (by rwa [List.head?_reverse] at hc))]
  exact List.reverse_reverse l

theorem trimStr_idem (l : Str) : trimStr (trimStr l) = trimStr l :=
  trimStr_eq_self (trimStr l) (head?_trimStr_false l) (getLast?_trimStr_false l)

/-! ## C9 — idempotence of cleaning -/

/-- C9: `cleanCommand` is idempotent: a cleaned text has no filler
characters left, every whitespace run is already a single space, and
there is no leading or trailing whitespace, so cleaning it again
changes nothing. -/
theorem c9_clean_idem (s : Str) :
    cleanCommand (cleanCommand s) = cleanCommand s := by
  have hmem : ∀ c ∈ cleanCommand s,
      c ∈ collapseWs (s.filter (fun c => !isFiller c)) :=
    fun c hc => mem_trimStr hc
  have hfil : (cleanCommand s).filter (fun c => !isFiller c) = cleanCommand s := by
    rw [List.filter_eq_self]
    intro c hc
    rcases mem_collapseWs _ c (hmem c hc) with h' | h'
    · rw [List.mem_filter] at h'
      exact h'.2
    · rw [h']
      decide
  have hcol : collapseWs (cleanCommand s) = cleanCommand s := by
    refine collapseWs_eq_self _ (noWsPair_trimStr (noWsPair_collapseWs _)) ?_
    intro c hc hwc
    exact ws_mem_collapseWs _ c (hmem c hc) hwc
  show trimStr (collapseWs ((cleanCommand s).filter (fun c => !isFiller c))) =
    cleanCommand s
  rw [hfil, hcol]
  exact trimStr_idem _

/-! ## Structural lemmas about normalization -/

theorem findGroup_mem :
    ∀ (tbl : List (Str × List Str)) (loc : Str) (g : Str × List Str),
      findGroup tbl loc = some g → g ∈ tbl
  | [], loc, g, h => by simp [findGroup] at h
  | (std, vars) :: rest, loc, g, h => by
    simp only [findGroup] at h
    by_cases hx : vars.any (fun v => hasSub v loc) = true
    · rw [if_pos hx] at h
      injection h with h
      simp [← h]
    · rw [if_neg hx] at h
      exact List.mem_cons_of_mem _ (findGroup_mem rest loc g h)

/-- The city table's canonical names are non-empty, contain no
whitespace and no filler characters, and its variants are non-empty. -/
theorem locationKeywords_facts :
    ∀ p ∈ locationKeywords,
      p.1 ≠ [] ∧ (∀ c ∈ p.1, isJsWs c = false ∧ isFiller c = false) ∧
        (∀ q ∈ p.2, q ≠ []) := by
  decide

theorem firstMatchLen_pos (vars : List Str) (hv : ∀ p ∈ vars, p ≠ []) :
    ∀ (s : Str) (n : Nat), firstMatchLen vars s = some n → 0 < n := by
  induction vars with
  | nil => intro s n h; simp [firstMatchLen] at h
  | cons p ps ih =>
    intro s n h
    simp only [firstMatchLen] at h
    by_cases hp : p.isPrefixOf s
    · rw [if_pos hp] at h
      injection h with h
      subst h
      exact List.length_pos.mpr (hv p (by simp))
    · rw [if_neg hp] at h
      exact ih (fun q hq => hv q (by simp [hq])) s n h

theorem replaceAllF_ne_nil (vars : List Str) (canon : Str) (hc : canon ≠ []) :
    ∀ (fuel : Nat) (v : Str), v ≠ [] → replaceAllF vars canon fuel v ≠ [] := by
  intro fuel
  induction fuel with
  | zero =>
    intro v hv
    cases v with
    | nil => exact absurd rfl hv
    | cons c rest => simp [replaceAllF]
  | succ fuel ih =>
    intro v hv
    cases v with
    | nil => exact absurd rfl hv
    | cons c rest =>
      simp only [replaceAllF]
      cases hm : firstMatchLen vars (c :: rest) with
      | none => simp
      | some n =>
        by_cases hn : n = 0 <;> simp [hn, List.append_eq_nil, hc]

theorem head?_append_of_ne_nil {α : Type _} (l x : List α) (h : l ≠ []) :
    (l ++ x).head? = l.head? := by
  cases l with
  | nil => exact absurd rfl h
  | cons a t => rfl

theorem replaceAllF_head (vars : List Str) (canon : Str) (hc : canon ≠ [])
    (hcw : ∀ c ∈ canon, isJsWs c = false) :
    ∀ (fuel : Nat) (v : Str),
      (∀ c, v.head? = some c → isJsWs c = false) →
      ∀ c, (replaceAllF vars canon fuel v).head? = some c → isJsWs c = false := by
  intro fuel
  induction fuel with
  | zero =>
    intro v hv c h
    cases v with
    | nil => simp [replaceAllF] at h
    | cons a rest =>
      simp only [replaceAllF] at h
      exact hv c h
  | succ fuel ih =>
    intro v hv c h
    cases v with
    | nil => simp [replaceAllF] at h
    | cons a rest =>
      simp only [replaceAllF] at h
      split at h
      · split at h
        · rw [head?_append_of_ne_nil canon _ hc] at h
          exact hcw c (List.mem_of_mem_head? (by simp [h]))
        · rw [head?_append_of_ne_nil canon _ hc] at h
          exact hcw c (List.mem_of_mem_head? (by simp [h]))
      · simp only [List.head?_cons, Option.some.injEq] at h
        exact hv c (by simp [← h])

theorem replaceAllF_nil (vars : List Str) (canon : Str) (fuel : Nat) :
    replaceAllF vars canon fuel [] = [] := by
  cases fuel <;> rfl

theorem getLast?_cons_ne {α : Type _} (a : α) (l : List α) (h : l ≠ []) :
    (a :: l).getLast? = l.getLast? :=
  getLast?_append_ne [a] l h

theorem replaceAllF_last (vars : List Str) (canon : Str) (hc : canon ≠ [])
    (hcw : ∀ c ∈ canon, isJsWs c = false) :
    ∀ (fuel : Nat) (v : Str),
      (∀ c, v.getLast? = some c → isJsWs c = false) →
      ∀ c, (replaceAllF vars canon fuel v).getLast? = some c → isJsWs c = false := by
  intro fuel
  induction fuel with
  | zero =>
    intro v hv c h
    cases v with
    | nil => simp [replaceAllF] at h
    | cons a rest =>
      simp only [replaceAllF] at h
      exact hv c h
  | succ fuel ih =>
    intro v hv c h
    cases v with
    | nil => simp [replaceAllF] at h
    | cons a rest =>
      simp only [replaceAllF] at h
      split at h
      next n hm =>
        split at h
        next hn =>
          by_cases hrest : rest = []
          · subst hrest
            rw [replaceAllF_nil] at h
            rw [getLast?_append_ne canon [a] (by simp)] at h
            simp only [List.getLast?_singleton, Option.some.injEq] at h
            exact hv c (by simp [← h])
          · have hrec := replaceAllF_ne_nil vars canon hc fuel rest hrest
            rw [getLast?_append_ne canon _ (by simp),
              getLast?_cons_ne a _ hrec] at h
            refine ih rest ?_ c h
            intro d hd
            exact hv d (by rw [getLast?_cons_ne a rest hrest]; exact hd)
        next hn =>
          by_cases hdrop : List.drop n (a :: rest) = []
          · rw [hdrop, replaceAllF_nil, List.append_nil] at h
            exact hcw c (List.mem_of_mem_getLast? (by simp [h]))
          · have hrec := replaceAllF_ne_nil vars canon hc fuel _ hdrop
            rw [getLast?_append_ne canon _ hrec] at h
            refine ih _ ?_ c h
            intro d hd
            refine hv d ?_
            rw [getLast?_of_suffix (List.drop_suffix n (a :: rest)) hdrop]
            exact hd
      next hm =>
        by_cases hrest : rest = []
        · subst hrest
          rw [replaceAllF_nil] at h
          simp only [List.getLast?_singleton, Option.some.injEq] at h
          exact hv c (by simp [← h])
        · have hrec := replaceAllF_ne_nil vars canon hc fuel rest hrest
          rw [getLast?_cons_ne a _ hrec] at h
          refine ih rest ?_ c h
          intro d hd
          exact hv d (by rw [getLast?_cons_ne a rest hrest]; exact hd)

/-- A location with no leading/trailing whitespace keeps that property
under city-alias normalization: the rewritten pieces are canonical city
names, which are non-empty and whitespace-free. -/
theorem normalizeLocation_trim (v : Str) (hT : trimStr v = v) :
    trimStr (normalizeLocation v) = normalizeLocation v := by
  unfold normalizeLocation replaceAll
  cases hf : findGroup locationKeywords v with
  | none => exact hT
  | some g =>
    obtain ⟨std, vars⟩ := g
    have hmem := findGroup_mem _ _ _ hf
    obtain ⟨hstd_ne, hstd_w, _⟩ := locationKeywords_facts _ hmem
    refine trimStr_eq_self _ ?_ ?_
    · refine replaceAllF_head vars std hstd_ne (fun c hcs => (hstd_w c hcs).1)
        v.length v ?_
      intro c hcv
      exact head?_trimStr_false v c (by rw [hT]; exact hcv)
    · refine replaceAllF_last vars std hstd_ne (fun c hcs => (hstd_w c hcs).1)
        v.length v ?_
      intro c hcv
      exact getLast?_trimStr_false v c (by rw [hT]; exact hcv)

theorem normalizeEntities_start_some (s : Str) (e : Option Str) :
    (normalizeEntities { start := some s, «end» := e }).start =
      if s ≠ [] ∧ s ≠ curLoc then some (normalizeLocation s) else some s := rfl

theorem normalizeEntities_end_some (e : Option Str) (s : Str) :
    (normalizeEntities { start := e, «end» := some s }).«end» =
      if s ≠ [] ∧ s ≠ noDest then some (normalizeLocation s) else some s := rfl

theorem normField_trim (w sent v : Str) (hw : trimStr w = w)
    (hv : (if w ≠ [] ∧ w ≠ sent then some (normalizeLocation w) else some w) =
      some v) :
    trimStr v = v := by
  by_cases hcond : w ≠ [] ∧ w ≠ sent
  · rw [if_pos hcond] at hv
    injection hv with hv
    rw [← hv]
    exact normalizeLocation_trim w hw
  · rw [if_neg hcond] at hv
    injection hv with hv
    rw [← hv]
    exact hw

/-! ## C8 — entity fields are trimmed, but can be empty -/

/-- C8, counterexample: for the input `"去 到上海"` the lazy first
group captures the single space, which `trim` reduces to the *empty*
string: `entities.start` is present, not a sentinel, and empty. -/
theorem c8_counterexample :
    (parse cmdSpacedRoute).type = IntentType.route_navigation ∧
      (parse cmdSpacedRoute).entities.start = some [] ∧
      ([] : Str) ≠ curLoc := by
  decide

/-- C8, amended: for every Intent produced by `parse`, whenever
`entities.start` or `entities.end` is present and is not a sentinel, it
has no leading or trailing whitespace after normalization — but it may
be the empty string, as the counterexample shows. -/
theorem c8_amended (s v : Str) :
    ((parse s).entities.start = some v → v ≠ curLoc → trimStr v = v) ∧
      ((parse s).entities.«end» = some v → v ≠ noDest → trimStr v = v) := by
  unfold parse
  split
  next i h =>
    unfold parseNavigation at h
    split at h
    next g1 g2 hr =>
      injection h with h
      subst h
      constructor
      · intro hs _
        rw [routeEntities, normalizeEntities_start_some] at hs
        exact normField_trim (trimStr g1) curLoc v (trimStr_idem g1) hs
      · intro hs _
        rw [routeEntities, normalizeEntities_end_some] at hs
        exact normField_trim (trimStr g2) noDest v (trimStr_idem g2) hs
    next hr =>
      split at h
      next g hd =>
        injection h with h
        subst h
        constructor
        · intro hs _
          rw [destEntities, normalizeEntities_start_some] at hs
          exact normField_trim curLoc curLoc v (by decide) hs
        · intro hs _
          rw [destEntities, normalizeEntities_end_some] at hs
          exact normField_trim (trimStr g) noDest v (trimStr_idem g) hs
      next hd =>
        split at h
        next g hst =>
          injection h with h
          subst h
          constructor
          · intro hs _
            rw [startEntities, normalizeEntities_start_some] at hs
            exact normField_trim (trimStr g) curLoc v (trimStr_idem g) hs
          · intro hs _
            rw [startEntities, normalizeEntities_end_some] at hs
            exact normField_trim noDest noDest v (by decide) hs
        next => exact Option.noConfusion h
  next h =>
    exact ⟨fun hs => by simp at hs, fun hs => by simp at hs⟩

/-- C8, witness for the amended theorem: the non-sentinel `start` of
Scenario 1's parse, `"从北京"`, is trimmed. -/
theorem c8_witness : trimStr ['从', '北', '京'] = ['从', '北', '京'] :=
  (c8_amended cmdScenario1 ['从', '北', '京']).1 (by decide) (by decide)

/-! ## Character provenance: captured entities come from the input -/

theorem mem_of_litPre {p s r : Str} (h : litPre p s = some r) :
    ∀ c ∈ r, c ∈ s := by
  unfold litPre at h
  by_cases hp : p.isPrefixOf s
  · rw [if_pos hp] at h
    injection h with h
    intro c hc
    rw [← h] at hc
    exact List.mem_of_mem_drop hc
  · rw [if_neg hp] at h
    exact Option.noConfusion h

theorem mem_of_midTryList :
    ∀ (ms : List Str) (s g : Str), midTryList ms s = some g → ∀ c ∈ g, c ∈ s
  | [], s, g, h => by simp [midTryList] at h
  | m :: ms, s, g, h => by
    simp only [midTryList] at h
    split at h
    next r hl =>
      split at h
      · exact mem_of_midTryList ms s g h
      · injection h with h
        intro c hc
        rw [← h] at hc
        exact mem_of_litPre hl c ((List.takeWhile_sublist _).mem hc)
    next hl => exact mem_of_midTryList ms s g h

theorem mem_of_routeLazy :
    ∀ (l g1 g2 : Str), routeLazy l = some (g1, g2) →
      (∀ c ∈ g1, c ∈ l) ∧ (∀ c ∈ g2, c ∈ l)
  | [], g1, g2, h => by simp [routeLazy] at h
  | c0 :: rest, g1, g2, h => by
    simp only [routeLazy] at h
    split at h
    · split at h
      next gg hmid =>
        injection h with h
        cases h
        refine ⟨by simp, ?_⟩
        intro c hc
        exact List.mem_cons_of_mem _ (mem_of_midTryList midMarkers rest g2 hmid c hc)
      next hmid =>
        split at h
        next a b hrl =>
          injection h with h
          cases h
          obtain ⟨ih1, ih2⟩ := mem_of_routeLazy rest a g2 hrl
          constructor
          · intro c hc
            rcases List.mem_cons.mp hc with h' | h'
            · simp [h']
            · exact List.mem_cons_of_mem _ (ih1 c h')
          · intro c hc
            exact List.mem_cons_of_mem _ (ih2 c hc)
        next => exact Option.noConfusion h
    · exact Option.noConfusion h

theorem mem_of_routeHeadsTry :
    ∀ (hds : List Str) (s g1 g2 : Str), routeHeadsTry hds s = some (g1, g2) →
      (∀ c ∈ g1, c ∈ s) ∧ (∀ c ∈ g2, c ∈ s)
  | [], s, g1, g2, h => by simp [routeHeadsTry] at h
  | hd :: hds, s, g1, g2, h => by
    simp only [routeHeadsTry] at h
    split at h
    next r hl =>
      split at h
      next g hrl =>
        injection h with h
        subst h
        obtain ⟨ih1, ih2⟩ := mem_of_routeLazy r g1 g2 hrl
        exact ⟨fun c hc => mem_of_litPre hl c (ih1 c hc),
          fun c hc => mem_of_litPre hl c (ih2 c hc)⟩
      next hrl => exact mem_of_routeHeadsTry hds s g1 g2 h
    next hl => exact mem_of_routeHeadsTry hds s g1 g2 h

theorem mem_of_routeMatch :
    ∀ (s g1 g2 : Str), routeMatch s = some (g1, g2) →
      (∀ c ∈ g1, c ∈ s) ∧ (∀ c ∈ g2, c ∈ s)
  | [], g1, g2, h => by simp [routeMatch] at h
  | c0 :: rest, g1, g2, h => by
    simp only [routeMatch] at h
    split at h
    next g hht =>
      injection h with h
      subst h
      exact mem_of_routeHeadsTry routeHeads (c0 :: rest) g1 g2 hht
    next hht =>
      obtain ⟨ih1, ih2⟩ := mem_of_routeMatch rest g1 g2 h
      exact ⟨fun c hc => List.mem_cons_of_mem _ (ih1 c hc),
        fun c hc => List.mem_cons_of_mem _ (ih2 c hc)⟩

theorem mem_of_destHeadsTry :
    ∀ (hds : List Str) (s g : Str), destHeadsTry hds s = some g → ∀ c ∈ g, c ∈ s
  | [], s, g, h => by simp [destHeadsTry] at h
  | hd :: hds, s, g, h => by
    simp only [destHeadsTry] at h
    split at h
    next r hl =>
      split at h
      · exact mem_of_destHeadsTry hds s g h
      · injection h with h
        intro c hc
        rw [← h] at hc
        exact mem_of_litPre hl c ((List.takeWhile_sublist _).mem hc)
    next hl => exact mem_of_destHeadsTry hds s g h

theorem mem_of_destMatch :
    ∀ (s g : Str), destMatch s = some g → ∀ c ∈ g, c ∈ s
  | [], g, h => by simp [destMatch] at h
  | c0 :: rest, g, h => by
    simp only [destMatch] at h
    split at h
    next g' hht =>
      injection h with h
      subst h
      exact mem_of_destHeadsTry destHeads (c0 :: rest) g' hht
    next hht =>
      intro c hc
      exact List.mem_cons_of_mem _ (mem_of_destMatch rest g h c hc)

theorem mem_of_startLazy :
    ∀ (l g : Str), startLazy l = some g → ∀ c ∈ g, c ∈ l
  | [], g, h => by simp [startLazy] at h
  | c0 :: rest, g, h => by
    simp only [startLazy] at h
    split at h
    · split at h
      · injection h with h
        intro c hc
        rw [← h] at hc
        simp only [List.mem_singleton] at hc
        simp [hc]
      · split at h
        next g' hsl =>
          injection h with h
          subst h
          intro c hc
          rcases List.mem_cons.mp hc with h' | h'
          · simp [h']
          · exact List.mem_cons_of_mem _ (mem_of_startLazy rest g' hsl c h')
        next => exact Option.noConfusion h
    · exact Option.noConfusion h

theorem mem_of_startMatch :
    ∀ (s g : Str), startMatch s = some g → ∀ c ∈ g, c ∈ s
  | [], g, h => by simp [startMatch] at h
  | c0 :: rest, g, h => by
    simp only [startMatch] at h
    split at h
    next r hl =>
      split at h
      next g' hsl =>
        injection h with h
        subst h
        intro c hc
        exact mem_of_litPre hl c (mem_of_startLazy r g' hsl c hc)
      next hsl =>
        intro c hc
        exact List.mem_cons_of_mem _ (mem_of_startMatch rest g h c hc)
    next hl =>
      intro c hc
      exact List.mem_cons_of_mem _ (mem_of_startMatch rest g h c hc)

theorem mem_replaceAllF (vars : List Str) (canon : Str) :
    ∀ (fuel : Nat) (v : Str) (c : Char),
      c ∈ replaceAllF vars canon fuel v → c ∈ v ∨ c ∈ canon := by
  intro fuel
  induction fuel with
  | zero =>
    intro v c h
    cases v with
    | nil => simp [replaceAllF] at h
    | cons a rest => exact Or.inl (by simpa [replaceAllF] using h)
  | succ fuel ih =>
    intro v c h
    cases v with
    | nil => simp [replaceAllF] at h
    | cons a rest =>
      simp only [replaceAllF] at h
      split at h
      next n hm =>
        split at h
        · rw [List.mem_append] at h
          rcases h with h | h
          · exact Or.inr h
          · rcases List.mem_cons.mp h with h | h
            · exact Or.inl (by simp [h])
            · rcases ih rest c h with h | h
              · exact Or.inl (List.mem_cons_of_mem _ h)
              · exact Or.inr h
        · rw [List.mem_append] at h
          rcases h with h | h
          · exact Or.inr h
          · rcases ih _ c h with h | h
            · exact Or.inl (List.mem_of_mem_drop h)
            · exact Or.inr h
      next hm =>
        rcases List.mem_cons.mp h with h | h
        · exact Or.inl (by simp [h])
        · rcases ih rest c h with h | h
          · exact Or.inl (List.mem_cons_of_mem _ h)
          · exact Or.inr h

theorem mem_normalizeLocation (v : Str) (c : Char)
    (hc : c ∈ normalizeLocation v) :
    c ∈ v ∨ ∃ p ∈ locationKeywords, c ∈ p.1 := by
  unfold normalizeLocation replaceAll at hc
  split at hc
  next std vars hf =>
    rcases mem_replaceAllF vars std v.length v c hc with h | h
    · exact Or.inl h
    · exact Or.inr ⟨(std, vars), findGroup_mem _ _ _ hf, h⟩
  next hf => exact Or.inl hc

theorem cleanCommand_no_filler (s : Str) :
    ∀ c ∈ cleanCommand s, isFiller c = false := by
  intro c hc
  have h1 := mem_trimStr hc
  rcases mem_collapseWs _ c h1 with h' | h'
  · exact (Bool.not_eq_true' _).mp (List.mem_filter.mp h').2
  · rw [h']
    decide

theorem normField_no_filler (w sent v : Str)
    (hw : ∀ c ∈ w, isFiller c = false)
    (hv : (if w ≠ [] ∧ w ≠ sent then some (normalizeLocation w) else some w) =
      some v) :
    ∀ c ∈ v, isFiller c = false := by
  by_cases hcond : w ≠ [] ∧ w ≠ sent
  · rw [if_pos hcond] at hv
    injection hv with hv
    intro c hc
    rw [← hv] at hc
    rcases mem_normalizeLocation w c hc with h | ⟨p, hp, h⟩
    · exact hw c h
    · exact ((locationKeywords_facts p hp).2.1 c h).2
  · rw [if_neg hcond] at hv
    injection hv with hv
    intro c hc
    rw [← hv] at hc
    exact hw c hc

/-! ## C10 — filler characters never reach the entities -/

/-- C10: the filler characters 请, 帮, 我 are deleted by `cleanCommand`
before pattern matching, so they never appear in any extracted entity
field; in particular `parse "去我家"` yields `end = "家"`, not
`"我家"`. -/
theorem c10_filler_stripped :
    (∀ s v : Str, (parse s).entities.start = some v →
      ∀ c ∈ v, isFiller c = false) ∧
      (∀ s v : Str, (parse s).entities.«end» = some v →
        ∀ c ∈ v, isFiller c = false) ∧
      (parse cmdMyHome).entities.«end» = some ['家'] := by
  have key : ∀ s v : Str,
      ((parse s).entities.start = some v → ∀ c ∈ v, isFiller c = false) ∧
        ((parse s).entities.«end» = some v → ∀ c ∈ v, isFiller c = false) := by
    intro s v
    have hclean := cleanCommand_no_filler s
    unfold parse
    split
    next i h =>
      unfold parseNavigation at h
      split at h
      next g1 g2 hr =>
        injection h with h
        subst h
        obtain ⟨hm1, hm2⟩ := mem_of_routeMatch (cleanCommand s) g1 g2 hr
        constructor
        · intro hs
          rw [routeEntities, normalizeEntities_start_some] at hs
          exact normField_no_filler (trimStr g1) curLoc v
            (fun c hc => hclean c (hm1 c (mem_trimStr hc))) hs
        · intro hs
          rw [routeEntities, normalizeEntities_end_some] at hs
          exact normField_no_filler (trimStr g2) noDest v
            (fun c hc => hclean c (hm2 c (mem_trimStr hc))) hs
      next hr =>
        split at h
        next g hd =>
          injection h with h
          subst h
          have hm := mem_of_destMatch (cleanCommand s) g hd
          constructor
          · intro hs
            rw [destEntities, normalizeEntities_start_some] at hs
            exact normField_no_filler curLoc curLoc v (by decide) hs
          · intro hs
            rw [destEntities, normalizeEntities_end_some] at hs
            exact normField_no_filler (trimStr g) noDest v
              (fun c hc => hclean c (hm c (mem_trimStr hc))) hs
        next hd =>
          split at h
          next g hst =>
            injection h with h
            subst h
            have hm := mem_of_startMatch (cleanCommand s) g hst
            constructor
            · intro hs
              rw [startEntities, normalizeEntities_start_some] at hs
              exact normField_no_filler (trimStr g) curLoc v
                (fun c hc => hclean c (hm c (mem_trimStr hc))) hs
            · intro hs
              rw [startEntities, normalizeEntities_end_some] at hs
              exact normField_no_filler noDest noDest v (by decide) hs
          next => exact Option.noConfusion h
    next h =>
      exact ⟨fun hs => by simp at hs, fun hs => by simp at hs⟩
  exact ⟨fun s v => (key s v).1, fun s v => (key s v).2, by decide⟩

/-- C10, witness: applied to the `end` entity `"家"` produced from
`"去我家"`. -/
theorem c10_witness : isFiller '家' = false :=
  c10_filler_stripped.2.1 cmdMyHome ['家'] (by decide) '家' (by decide)

end Heiha
